import Mathlib

/-!
# Verification of `mongo-query-clause-modification`

Shallow embedding of the repository's three functions (`omit`,
`removeFieldClausesFromQuery` — exported as `removeFieldReferences` — and
`addOrClause`, all in `src/remove-field-references.js`) together with proofs
about them.

A JavaScript object is modelled as an ordered association list from string
keys to values (`Doc`).  A value is either an opaque scalar payload
(modelled by a `Nat`; the code never inspects payloads except for JS
truthiness, which for the payloads that occur — numbers, `null` — is
"non-zero") or an array of sub-documents (`Value.docs`), the shape taken by
`$or` / `$and` clause values.
-/

set_option autoImplicit false

namespace MongoQuery

/-- A JS value as used by the library: an opaque scalar payload or an array
of sub-documents. -/
inductive Value where
  | scalar : Nat → Value
  | docs : List (List (String × Value)) → Value

/-- A query document: an ordered mapping from string keys to values. -/
abbrev Doc := List (String × Value)

/-- First value bound to key `k` in `q` (JS property access `q[k]`;
`none` = `undefined`). -/
def lookupKey : Doc → String → Option Value
  | [], _ => none
  | p :: rest, k => if p.1 = k then some p.2 else lookupKey rest k

/-- Whether `q` has a property named `k`. -/
def hasKey (q : Doc) (k : String) : Bool :=
  (lookupKey q k).isSome

/-- Remove every entry with key `k` (JS rest-destructuring
`const {[k]: ignored, ...rest} = q`). -/
def eraseKey : Doc → String → Doc
  | [], _ => []
  | p :: rest, k => if p.1 = k then eraseKey rest k else p :: eraseKey rest k

/-- JS truthiness of a property access result: `undefined` is falsy, an
array (even an empty one) is truthy, a scalar payload is truthy iff it is
not one of the falsy scalars (zero, empty string, null — all modelled
by payload `0`). -/
def truthy : Option Value → Bool
  | none => false
  | some (.scalar n) => n ≠ 0
  | some (.docs _) => true

/-- Coerce a property access result to a list of sub-documents, as the
source does with `x.$or || []` before `.map`/array spread.  A *truthy*
scalar here would make the JS code throw a `TypeError` (a precondition
violation per the spec, §7); the model returns `[]` in that unreachable
case. -/
def asDocs : Option Value → List Doc
  | some (.docs l) => l
  | _ => []

/-- JS `{...q, k: v}`: if `q` already has key `k` the entry keeps its
position with the new value, otherwise `(k, v)` is appended at the end. -/
def setKeyJS (q : Doc) (k : String) (v : Value) : Doc :=
  if hasKey q k then q.map (fun p => if p.1 = k then (p.1, v) else p)
  else q ++ [(k, v)]

/-- JS `{...a, ...b}`: keys of `a` in order (values overridden by `b` where
shared), then keys of `b` not present in `a`, in the order of `b`. -/
def spreadJS (a b : Doc) : Doc :=
  a.map (fun p =>
    match lookupKey b p.1 with
    | some v => (p.1, v)
    | none => p)
    ++ b.filter (fun p => ¬ hasKey a p.1)

/-- Source function `omit(obj, [field, ...nextFields])` (named `omitKeys`
here because `omit` is a reserved word in Lean).  Note the JS subtlety:
called with an *empty* key list, the destructuring binds
`field = undefined`, and the computed property key `[field]` coerces it to
the string `"undefined"`, so the key `"undefined"` is removed. -/
def omitKeys (obj : Doc) : List String → Doc
  | [] => eraseKey obj "undefined"
  | [f] => eraseKey obj f
  | f :: g :: rest => omitKeys (eraseKey obj f) (g :: rest)

/-- Structural engine of `removeFieldClausesFromQuery`, with the depth
budget as a `Nat` fuel (fuel `0` = the `maxDepth <= 0` guard: return the
query unprocessed). -/
def removeFC (fieldName : String) : Nat → Doc → Doc
  | 0, query => query
  | n + 1, query =>
    let filteredTopLevel := omitKeys query [fieldName]
    let newOr := ((asDocs (lookupKey filteredTopLevel "$or")).map
        (removeFC fieldName n)).filter (fun q => 0 < q.length)
    let newAnd := ((asDocs (lookupKey filteredTopLevel "$and")).map
        (removeFC fieldName n)).filter (fun q => 0 < q.length)
    spreadJS
      (spreadJS (omitKeys filteredTopLevel ["$or", "$and"])
        (if 0 < newOr.length then [("$or", Value.docs newOr)] else []))
      (if 0 < newAnd.length then [("$and", Value.docs newAnd)] else [])

/-- Source function `removeFieldClausesFromQuery(query, fieldName,
maxDepth)`.  The JS guard `maxDepth <= 0 → return query` together with the
recursive calls at `maxDepth - 1` is exactly `removeFC` run with fuel
`maxDepth.toNat` (a non-positive depth gives fuel `0`, and
`(d - 1).toNat = d.toNat - 1` for positive `d`). -/
def removeFieldClausesFromQuery (query : Doc) (fieldName : String)
    (maxDepth : Int) : Doc :=
  removeFC fieldName maxDepth.toNat query

/-- The exported `removeFieldReferences`, with the source's default
`maxDepth = 5`. -/
def removeFieldReferences (query : Doc) (fieldName : String)
    (maxDepth : Int := 5) : Doc :=
  removeFieldClausesFromQuery query fieldName maxDepth

/-- Source function `addOrClause(query, orClause)`. -/
def addOrClause (query orClause : Doc) : Doc :=
  let orVal := lookupKey query "$or"
  let queryRest := eraseKey query "$or"
  if truthy orVal then
    setKeyJS queryRest "$and" (Value.docs
      (asDocs (lookupKey queryRest "$and")
        ++ [[("$or", orVal.getD (Value.scalar 0))], orClause]))
  else if truthy (lookupKey queryRest "$and") then
    setKeyJS queryRest "$and"
      (Value.docs (asDocs (lookupKey queryRest "$and") ++ [orClause]))
  else
    spreadJS query orClause

/-! ## Basic lemmas about the document operations -/

@[simp] theorem lookupKey_nil (k : String) : lookupKey [] k = none := rfl

@[simp] theorem lookupKey_cons (p : String × Value) (rest : Doc) (k : String) :
    lookupKey (p :: rest) k = if p.1 = k then some p.2 else lookupKey rest k := by
  cases p
  rfl

theorem lookupKey_append_of_none {a : Doc} {k : String} (b : Doc)
    (h : lookupKey a k = none) : lookupKey (a ++ b) k = lookupKey b k := by
  induction a with
  | nil => rfl
  | cons p rest ih =>
    simp only [lookupKey_cons] at h ⊢
    split at h
    · exact absurd h (by simp)
    · simp [*]

theorem lookupKey_append_of_some {a : Doc} {k : String} {v : Value} (b : Doc)
    (h : lookupKey a k = some v) : lookupKey (a ++ b) k = some v := by
  induction a with
  | nil => simp [lookupKey] at h
  | cons p rest ih =>
    simp only [lookupKey_cons] at h ⊢
    split at h <;> simp_all

@[simp] theorem hasKey_nil (k : String) : hasKey [] k = false := rfl

theorem hasKey_eq_false_iff {q : Doc} {k : String} :
    hasKey q k = false ↔ lookupKey q k = none := by
  rw [hasKey]
  cases lookupKey q k <;> simp

theorem hasKey_append (a b : Doc) (k : String) :
    hasKey (a ++ b) k = (hasKey a k || hasKey b k) := by
  rcases h : lookupKey a k with _ | v
  · rw [hasKey, lookupKey_append_of_none b h]
    simp [hasKey, h]
  · rw [hasKey, lookupKey_append_of_some b h]
    simp [hasKey, h]

@[simp] theorem eraseKey_nil (k : String) : eraseKey [] k = [] := rfl

theorem eraseKey_cons (p : String × Value) (rest : Doc) (k : String) :
    eraseKey (p :: rest) k =
      if p.1 = k then eraseKey rest k else p :: eraseKey rest k := by
  cases p
  rfl

theorem mem_eraseKey {p : String × Value} {q : Doc} {k : String} :
    p ∈ eraseKey q k ↔ p ∈ q ∧ p.1 ≠ k := by
  induction q with
  | nil => simp
  | cons hd rest ih =>
    rw [eraseKey_cons]
    by_cases h : hd.1 = k
    · simp only [if_pos h, ih, List.mem_cons]
      constructor
      · exact fun hh => ⟨Or.inr hh.1, hh.2⟩
      · rintro ⟨hh | hh, hne⟩
        · exact absurd (hh ▸ h) hne
        · exact ⟨hh, hne⟩
    · simp only [if_neg h, List.mem_cons, ih]
      constructor
      · rintro (hh | hh)
        · exact ⟨Or.inl hh, hh ▸ h⟩
        · exact ⟨Or.inr hh.1, hh.2⟩
      · rintro ⟨hh | hh, hne⟩
        · exact Or.inl hh
        · exact Or.inr ⟨hh, hne⟩

theorem eraseKey_append (a b : Doc) (k : String) :
    eraseKey (a ++ b) k = eraseKey a k ++ eraseKey b k := by
  induction a with
  | nil => rfl
  | cons p rest ih => by_cases h : p.1 = k <;> simp [eraseKey_cons, h, ih]

@[simp] theorem lookupKey_eraseKey_self (q : Doc) (k : String) :
    lookupKey (eraseKey q k) k = none := by
  induction q with
  | nil => rfl
  | cons p rest ih =>
    rw [eraseKey_cons]
    by_cases h : p.1 = k <;> simp [h, ih]

@[simp] theorem hasKey_eraseKey_self (q : Doc) (k : String) :
    hasKey (eraseKey q k) k = false := by
  simp [hasKey_eq_false_iff]

theorem lookupKey_eraseKey_ne {k k' : String} (q : Doc) (h : k' ≠ k) :
    lookupKey (eraseKey q k) k' = lookupKey q k' := by
  induction q with
  | nil => rfl
  | cons p rest ih =>
    rw [eraseKey_cons]
    by_cases hp : p.1 = k
    · have hpk' : ¬ p.1 = k' := fun hc => h (hc.symm.trans hp)
      simp [hp, hpk', ih, Ne.symm h]
    · by_cases hk : p.1 = k' <;> simp [hp, hk, ih, h]

theorem hasKey_eraseKey_ne {k k' : String} (q : Doc) (h : k' ≠ k) :
    hasKey (eraseKey q k) k' = hasKey q k' := by
  simp [hasKey, lookupKey_eraseKey_ne q h]

theorem eraseKey_of_hasKey_eq_false {q : Doc} {k : String}
    (h : hasKey q k = false) : eraseKey q k = q := by
  rw [hasKey_eq_false_iff] at h
  induction q with
  | nil => rfl
  | cons p rest ih =>
    simp only [lookupKey_cons] at h
    split at h
    · exact absurd h (by simp)
    · rw [eraseKey_cons, if_neg (by assumption), ih h]

theorem fst_ne_of_mem_eraseKey {p : String × Value} {q : Doc} {k : String}
    (h : p ∈ eraseKey q k) : p.1 ≠ k :=
  (mem_eraseKey.mp h).2

/-! ## Lemmas about `spreadJS` and `setKeyJS` -/

theorem spreadJS_disjoint {a b : Doc}
    (h1 : ∀ p ∈ a, lookupKey b p.1 = none)
    (h2 : ∀ p ∈ b, hasKey a p.1 = false) : spreadJS a b = a ++ b := by
  unfold spreadJS
  have hmap : a.map (fun p =>
      match lookupKey b p.1 with
      | some v => (p.1, v)
      | none => p) = a.map id := by
    refine List.map_congr_left (fun p hp => ?_)
    simp [h1 p hp]
  have hfil : b.filter (fun p => ¬ hasKey a p.1) = b :=
    List.filter_eq_self.mpr (fun p hp => by simp [h2 p hp])
  rw [hmap, hfil, List.map_id]

theorem setKeyJS_map_fst (q : Doc) (k : String) (v : Value) :
    (setKeyJS q k v).map Prod.fst =
      if hasKey q k then q.map Prod.fst else q.map Prod.fst ++ [k] := by
  unfold setKeyJS
  split
  · simp only [List.map_map, if_true]
    refine List.map_congr_left (fun p _ => ?_)
    by_cases h : p.1 = k <;> simp [h]
  · simp

/-! ## Structure of `removeFC` at positive fuel -/

/-- The `$or` fragment `...(newOr.length > 0 ? {$or: newOr} : {})` of the
result object. -/
def orClausePart (l : List Doc) : Doc :=
  if 0 < l.length then [("$or", Value.docs l)] else []

/-- The `$and` fragment `...(newAnd.length > 0 ? {$and: newAnd} : {})` of
the result object. -/
def andClausePart (l : List Doc) : Doc :=
  if 0 < l.length then [("$and", Value.docs l)] else []

/-- The `newOr` intermediate of `removeFieldClausesFromQuery` at fuel
`n + 1`. -/
def newOrOf (f : String) (n : Nat) (q : Doc) : List Doc :=
  ((asDocs (lookupKey (eraseKey q f) "$or")).map (removeFC f n)).filter
    (fun d => 0 < d.length)

/-- The `newAnd` intermediate of `removeFieldClausesFromQuery` at fuel
`n + 1`. -/
def newAndOf (f : String) (n : Nat) (q : Doc) : List Doc :=
  ((asDocs (lookupKey (eraseKey q f) "$and")).map (removeFC f n)).filter
    (fun d => 0 < d.length)

theorem lookupKey_orClausePart_ne {k : String} (l : List Doc)
    (h : k ≠ "$or") : lookupKey (orClausePart l) k = none := by
  unfold orClausePart
  split <;> simp [Ne.symm h]

theorem lookupKey_andClausePart_ne {k : String} (l : List Doc)
    (h : k ≠ "$and") : lookupKey (andClausePart l) k = none := by
  unfold andClausePart
  split <;> simp [Ne.symm h]

theorem fst_eq_of_mem_orClausePart {p : String × Value} {l : List Doc}
    (h : p ∈ orClausePart l) : p.1 = "$or" := by
  unfold orClausePart at h
  split at h <;> simp_all

theorem fst_eq_of_mem_andClausePart {p : String × Value} {l : List Doc}
    (h : p ∈ andClausePart l) : p.1 = "$and" := by
  unfold andClausePart at h
  split at h <;> simp_all

/-- The result object of one processing step, with the two spreads of the
source's final object literal collapsed to appends (legitimate because the
base has its `$or`/`$and` keys removed and the two optional fragments have
distinct keys). -/
theorem removeFC_succ (f : String) (n : Nat) (q : Doc) :
    removeFC f (n + 1) q =
      eraseKey (eraseKey (eraseKey q f) "$or") "$and"
        ++ orClausePart (newOrOf f n q) ++ andClausePart (newAndOf f n q) := by
  show spreadJS (spreadJS (eraseKey (eraseKey (eraseKey q f) "$or") "$and")
        (orClausePart (newOrOf f n q))) (andClausePart (newAndOf f n q)) = _
  have hB1 : ∀ p ∈ eraseKey (eraseKey (eraseKey q f) "$or") "$and",
      lookupKey (orClausePart (newOrOf f n q)) p.1 = none := by
    intro p hp
    have hne : p.1 ≠ "$or" :=
      fst_ne_of_mem_eraseKey (mem_eraseKey.mp hp).1
    exact lookupKey_orClausePart_ne _ hne
  have hB2 : ∀ p ∈ orClausePart (newOrOf f n q),
      hasKey (eraseKey (eraseKey (eraseKey q f) "$or") "$and") p.1 = false := by
    intro p hp
    rw [fst_eq_of_mem_orClausePart hp,
      hasKey_eraseKey_ne _ (by decide : ("$or" : String) ≠ "$and"),
      hasKey_eraseKey_self]
  rw [spreadJS_disjoint hB1 hB2]
  have hC1 : ∀ p ∈ eraseKey (eraseKey (eraseKey q f) "$or") "$and"
        ++ orClausePart (newOrOf f n q),
      lookupKey (andClausePart (newAndOf f n q)) p.1 = none := by
    intro p hp
    rcases List.mem_append.mp hp with hp | hp
    · exact lookupKey_andClausePart_ne _ (fst_ne_of_mem_eraseKey hp)
    · rw [fst_eq_of_mem_orClausePart hp]
      exact lookupKey_andClausePart_ne _ (by decide)
  have hC2 : ∀ p ∈ andClausePart (newAndOf f n q),
      hasKey (eraseKey (eraseKey (eraseKey q f) "$or") "$and"
        ++ orClausePart (newOrOf f n q)) p.1 = false := by
    intro p hp
    rw [fst_eq_of_mem_andClausePart hp, hasKey_append, hasKey_eraseKey_self,
      Bool.false_or, hasKey_eq_false_iff]
    exact lookupKey_orClausePart_ne _ (by decide)
  rw [spreadJS_disjoint hC1 hC2, List.append_assoc]

theorem newOrOf_or (n : Nat) (q : Doc) : newOrOf "$or" n q = [] := by
  simp [newOrOf, asDocs]

theorem newAndOf_and (n : Nat) (q : Doc) : newAndOf "$and" n q = [] := by
  simp [newAndOf, asDocs]

/-- The processed object never has the removed field at its top level. -/
theorem hasKey_removeFC_succ_field (f : String) (n : Nat) (q : Doc) :
    hasKey (removeFC f (n + 1) q) f = false := by
  rw [removeFC_succ, hasKey_append, hasKey_append]
  have hB : hasKey (eraseKey (eraseKey (eraseKey q f) "$or") "$and") f
      = false := by
    rcases eq_or_ne f "$and" with h | h
    · rw [h, hasKey_eraseKey_self]
    · rw [hasKey_eraseKey_ne _ h]
      rcases eq_or_ne f "$or" with h2 | h2
      · rw [h2, hasKey_eraseKey_self]
      · rw [hasKey_eraseKey_ne _ h2, hasKey_eraseKey_self]
  have hOP : hasKey (orClausePart (newOrOf f n q)) f = false := by
    rcases eq_or_ne f "$or" with h | h
    · rw [h, newOrOf_or]
      rfl
    · rw [hasKey_eq_false_iff]
      exact lookupKey_orClausePart_ne _ h
  have hAP : hasKey (andClausePart (newAndOf f n q)) f = false := by
    rcases eq_or_ne f "$and" with h | h
    · rw [h, newAndOf_and]
      rfl
    · rw [hasKey_eq_false_iff]
      exact lookupKey_andClausePart_ne _ h
  rw [hB, hOP, hAP]
  rfl

/-- The `$or` property of the processed object. -/
theorem lookupKey_removeFC_succ_or (f : String) (n : Nat) (q : Doc) :
    lookupKey (removeFC f (n + 1) q) "$or" =
      if 0 < (newOrOf f n q).length then some (Value.docs (newOrOf f n q))
      else none := by
  rw [removeFC_succ, List.append_assoc]
  rw [lookupKey_append_of_none _ (by
    rw [lookupKey_eraseKey_ne _ (by decide : ("$or" : String) ≠ "$and"),
      lookupKey_eraseKey_self])]
  unfold orClausePart
  split
  · simp
  · rw [List.nil_append]
    exact lookupKey_andClausePart_ne _ (by decide)

/-- The `$and` property of the processed object. -/
theorem lookupKey_removeFC_succ_and (f : String) (n : Nat) (q : Doc) :
    lookupKey (removeFC f (n + 1) q) "$and" =
      if 0 < (newAndOf f n q).length then some (Value.docs (newAndOf f n q))
      else none := by
  rw [removeFC_succ, List.append_assoc]
  rw [lookupKey_append_of_none _ (by rw [lookupKey_eraseKey_self])]
  rw [lookupKey_append_of_none _
    (lookupKey_orClausePart_ne _ (by decide))]
  unfold andClausePart
  split <;> simp

theorem asDocs_lookupKey_removeFC_succ_or (f : String) (n : Nat) (q : Doc) :
    asDocs (lookupKey (removeFC f (n + 1) q) "$or") = newOrOf f n q := by
  rw [lookupKey_removeFC_succ_or]
  split
  · rfl
  · have h0 : (newOrOf f n q).length = 0 := by omega
    rw [List.length_eq_zero.mp h0]
    rfl

theorem asDocs_lookupKey_removeFC_succ_and (f : String) (n : Nat) (q : Doc) :
    asDocs (lookupKey (removeFC f (n + 1) q) "$and") = newAndOf f n q := by
  rw [lookupKey_removeFC_succ_and]
  split
  · rfl
  · have h0 : (newAndOf f n q).length = 0 := by omega
    rw [List.length_eq_zero.mp h0]
    rfl

/-! ## Depth-indexed predicates over documents

Nesting levels are counted the way the spec counts recursive steps: a call
with `maxDepth = d` processes the levels reached "within `d` recursive
steps", i.e. the top level (step 1) down to documents nested `d - 1` deep
inside `$or`/`$and` sequences (step `d`); documents nested deeper — "deeper
than `d`" — are returned verbatim.  Accordingly `fieldAbsentUpTo d f q`
checks the top level of `q` and `d - 1` further levels of `$or`/`$and`
nesting, and `fieldAbsentUpTo 0 f q` checks nothing. -/

/-- No key `f` at the top level of `q` nor in any sub-document reachable
through `$or`/`$and` sequences within `d` recursive steps. -/
def fieldAbsentUpTo : Nat → String → Doc → Bool
  | 0, _, _ => true
  | n + 1, f, q =>
    !hasKey q f
      && (asDocs (lookupKey q "$or")).all (fieldAbsentUpTo n f)
      && (asDocs (lookupKey q "$and")).all (fieldAbsentUpTo n f)

theorem mem_newOrOf {e : Doc} {f : String} {n : Nat} {q : Doc}
    (h : e ∈ newOrOf f n q) :
    0 < e.length ∧
      ∃ x ∈ asDocs (lookupKey (eraseKey q f) "$or"), removeFC f n x = e := by
  unfold newOrOf at h
  have h1 := List.mem_filter.mp h
  refine ⟨by simpa using h1.2, ?_⟩
  obtain ⟨x, hx, rfl⟩ := List.mem_map.mp h1.1
  exact ⟨x, hx, rfl⟩

theorem mem_newAndOf {e : Doc} {f : String} {n : Nat} {q : Doc}
    (h : e ∈ newAndOf f n q) :
    0 < e.length ∧
      ∃ x ∈ asDocs (lookupKey (eraseKey q f) "$and"), removeFC f n x = e := by
  unfold newAndOf at h
  have h1 := List.mem_filter.mp h
  refine ⟨by simpa using h1.2, ?_⟩
  obtain ⟨x, hx, rfl⟩ := List.mem_map.mp h1.1
  exact ⟨x, hx, rfl⟩

/-- Main removal guarantee: running the engine with fuel `n` leaves no
occurrence of the field within `n` levels of the result. -/
theorem removeFC_fieldAbsent (f : String) :
    ∀ (n : Nat) (q : Doc), fieldAbsentUpTo n f (removeFC f n q) = true := by
  intro n
  induction n with
  | zero => intro q; rfl
  | succ n ih =>
    intro q
    show (!hasKey (removeFC f (n + 1) q) f
      && (asDocs (lookupKey (removeFC f (n + 1) q) "$or")).all
        (fieldAbsentUpTo n f)
      && (asDocs (lookupKey (removeFC f (n + 1) q) "$and")).all
        (fieldAbsentUpTo n f)) = true
    rw [Bool.and_eq_true, Bool.and_eq_true]
    refine ⟨⟨?_, ?_⟩, ?_⟩
    · rw [hasKey_removeFC_succ_field]
      rfl
    · rw [asDocs_lookupKey_removeFC_succ_or, List.all_eq_true]
      intro e he
      obtain ⟨-, x, -, rfl⟩ := mem_newOrOf he
      exact ih x
    · rw [asDocs_lookupKey_removeFC_succ_and, List.all_eq_true]
      intro e he
      obtain ⟨-, x, -, rfl⟩ := mem_newAndOf he
      exact ih x

/-! ## Claims C2, C5, C10 -/

/-- Claim C2 (confirmed): for every query document `q`, field name `f` and
`maxDepth` `d`, the result of `removeFieldReferences(q, f, d)` contains no
key equal to `f` at the top level nor in any sub-document nested inside
`$or`/`$and` sequences reachable within `d` recursive steps (levels counted
as the spec counts recursive steps: the top level is reached by the first
step); occurrences deeper than `d` may remain. -/
theorem removeFieldReferences_field_absent (q : Doc) (f : String) (d : Int) :
    fieldAbsentUpTo d.toNat f (removeFieldReferences q f d) = true :=
  removeFC_fieldAbsent f d.toNat q

/-- Claim C5 (confirmed): for every query document, field name, and
`maxDepth <= 0`, `removeFieldReferences` returns the query exactly
unchanged, with no processing at all. -/
theorem removeFieldReferences_nonpositive_depth (q : Doc) (f : String)
    (d : Int) (hd : d ≤ 0) : removeFieldReferences q f d = q := by
  rw [removeFieldReferences, removeFieldClausesFromQuery,
    Int.toNat_eq_zero.mpr hd]
  rfl

theorem removeFieldReferences_nonpositive_depth_witness :
    ((-2 : Int) ≤ 0) ∧
      removeFieldReferences [("hello", Value.scalar 1)] "hello" (-2)
        = [("hello", Value.scalar 1)] :=
  ⟨by decide,
    removeFieldReferences_nonpositive_depth [("hello", Value.scalar 1)]
      "hello" (-2) (by decide)⟩

/-- Claim C10 (confirmed): `removeFieldReferences` treats the operator
names themselves as ordinary removable field names: for every query `q` and
`maxDepth d ≥ 1`, removing field name `$or` leaves no `$or` key at the top
level nor at any nesting level reachable within `d` recursive steps (the
whole `$or` clause is deleted by the top-level omission rather than
recursed into), and symmetrically for `$and`. -/
theorem removeFieldReferences_operator_name (q : Doc) (d : Int)
    (_hd : 1 ≤ d) :
    fieldAbsentUpTo d.toNat "$or" (removeFieldReferences q "$or" d) = true ∧
    fieldAbsentUpTo d.toNat "$and" (removeFieldReferences q "$and" d)
      = true :=
  ⟨removeFC_fieldAbsent "$or" d.toNat q, removeFC_fieldAbsent "$and" d.toNat q⟩

theorem removeFieldReferences_operator_name_witness :
    ((1 : Int) ≤ 1) ∧
      (fieldAbsentUpTo (1 : Int).toNat "$or"
          (removeFieldReferences
            [("$or", Value.docs [[("a", Value.scalar 1)]]),
              ("b", Value.scalar 2)] "$or" 1) = true ∧
        fieldAbsentUpTo (1 : Int).toNat "$and"
          (removeFieldReferences
            [("$or", Value.docs [[("a", Value.scalar 1)]]),
              ("b", Value.scalar 2)] "$and" 1) = true) :=
  ⟨by decide,
    removeFieldReferences_operator_name
      [("$or", Value.docs [[("a", Value.scalar 1)]]), ("b", Value.scalar 2)]
      1 (by decide)⟩

/-! ## Idempotence (claim C4) -/

theorem eraseKey_orClausePart_self (l : List Doc) :
    eraseKey (orClausePart l) "$or" = [] := by
  unfold orClausePart
  split <;> simp [eraseKey_cons]

theorem eraseKey_andClausePart_self (l : List Doc) :
    eraseKey (andClausePart l) "$and" = [] := by
  unfold andClausePart
  split <;> simp [eraseKey_cons]

theorem eraseKey_orClausePart_ne {k : String} (l : List Doc)
    (h : k ≠ "$or") : eraseKey (orClausePart l) k = orClausePart l := by
  unfold orClausePart
  split <;> simp [eraseKey_cons, Ne.symm h]

theorem eraseKey_andClausePart_ne {k : String} (l : List Doc)
    (h : k ≠ "$and") : eraseKey (andClausePart l) k = andClausePart l := by
  unfold andClausePart
  split <;> simp [eraseKey_cons, Ne.symm h]

theorem hasKey_triple_erase_or (q : Doc) (f : String) :
    hasKey (eraseKey (eraseKey (eraseKey q f) "$or") "$and") "$or" = false := by
  rw [hasKey_eraseKey_ne _ (by decide : ("$or" : String) ≠ "$and"),
    hasKey_eraseKey_self]

theorem hasKey_triple_erase_and (q : Doc) (f : String) :
    hasKey (eraseKey (eraseKey (eraseKey q f) "$or") "$and") "$and"
      = false := by
  rw [hasKey_eraseKey_self]

/-- Erasing `$or` and then `$and` from the result of a processing step
recovers the step's base object (the filtered top level without its
operator keys). -/
theorem erase_ops_removeFC_succ (f : String) (n : Nat) (q : Doc) :
    eraseKey (eraseKey (removeFC f (n + 1) q) "$or") "$and"
      = eraseKey (eraseKey (eraseKey q f) "$or") "$and" := by
  rw [removeFC_succ f n q]
  have h1 : eraseKey (eraseKey (eraseKey (eraseKey q f) "$or") "$and") "$or"
      = eraseKey (eraseKey (eraseKey q f) "$or") "$and" :=
    eraseKey_of_hasKey_eq_false (hasKey_triple_erase_or q f)
  have h2 : eraseKey (eraseKey (eraseKey (eraseKey q f) "$or") "$and") "$and"
      = eraseKey (eraseKey (eraseKey q f) "$or") "$and" :=
    eraseKey_of_hasKey_eq_false (hasKey_triple_erase_and q f)
  have e1 : eraseKey (orClausePart (newOrOf f n q)) "$or" = [] :=
    eraseKey_orClausePart_self _
  have e2 : eraseKey (andClausePart (newAndOf f n q)) "$or"
      = andClausePart (newAndOf f n q) :=
    eraseKey_andClausePart_ne _ (by decide : ("$or" : String) ≠ "$and")
  have e3 : eraseKey (andClausePart (newAndOf f n q)) "$and" = [] :=
    eraseKey_andClausePart_self _
  simp only [eraseKey_append, h1, h2, e1, e2, e3, eraseKey_nil,
    List.append_nil]

/-- Processing an already-processed document changes nothing: the engine is
idempotent at every fixed fuel. -/
theorem removeFC_idem (f : String) :
    ∀ (n : Nat) (q : Doc), removeFC f n (removeFC f n q) = removeFC f n q := by
  intro n
  induction n with
  | zero => intro q; rfl
  | succ n ih =>
    intro q
    have hEf : eraseKey (removeFC f (n + 1) q) f = removeFC f (n + 1) q :=
      eraseKey_of_hasKey_eq_false (hasKey_removeFC_succ_field f n q)
    have hOr : newOrOf f n (removeFC f (n + 1) q) = newOrOf f n q := by
      unfold newOrOf
      rw [hEf, asDocs_lookupKey_removeFC_succ_or]
      have hmap : (newOrOf f n q).map (removeFC f n)
          = (newOrOf f n q).map id := by
        refine List.map_congr_left fun e he => ?_
        obtain ⟨-, x, -, rfl⟩ := mem_newOrOf he
        exact ih x
      rw [hmap, List.map_id]
      refine List.filter_eq_self.mpr fun e he => ?_
      simpa using (mem_newOrOf he).1
    have hAnd : newAndOf f n (removeFC f (n + 1) q) = newAndOf f n q := by
      unfold newAndOf
      rw [hEf, asDocs_lookupKey_removeFC_succ_and]
      have hmap : (newAndOf f n q).map (removeFC f n)
          = (newAndOf f n q).map id := by
        refine List.map_congr_left fun e he => ?_
        obtain ⟨-, x, -, rfl⟩ := mem_newAndOf he
        exact ih x
      rw [hmap, List.map_id]
      refine List.filter_eq_self.mpr fun e he => ?_
      simpa using (mem_newAndOf he).1
    calc removeFC f (n + 1) (removeFC f (n + 1) q)
        = eraseKey (eraseKey (eraseKey (removeFC f (n + 1) q) f) "$or") "$and"
            ++ orClausePart (newOrOf f n (removeFC f (n + 1) q))
            ++ andClausePart (newAndOf f n (removeFC f (n + 1) q)) :=
          removeFC_succ f n (removeFC f (n + 1) q)
      _ = eraseKey (eraseKey (eraseKey q f) "$or") "$and"
            ++ orClausePart (newOrOf f n q)
            ++ andClausePart (newAndOf f n q) := by
          rw [hEf, erase_ops_removeFC_succ, hOr, hAnd]
      _ = removeFC f (n + 1) q := (removeFC_succ f n q).symm

/-- Claim C4 (confirmed): `removeFieldReferences` is idempotent at the
default depth: applying it twice with the same field name (and the default
`maxDepth = 5`) gives the same result as applying it once, for every query
document and field name. -/
theorem removeFieldReferences_idempotent (q : Doc) (f : String) :
    removeFieldReferences (removeFieldReferences q f) f
      = removeFieldReferences q f :=
  removeFC_idem f (Int.toNat 5) q

/-! ## Lookup characterization of `spreadJS` -/

@[simp] theorem hasKey_cons (p : String × Value) (rest : Doc) (k : String) :
    hasKey (p :: rest) k = if p.1 = k then true else hasKey rest k := by
  rw [hasKey, lookupKey_cons]
  split <;> simp [hasKey]

theorem lookupKey_map_spread_of_none {b : Doc} {k : String}
    (hb : lookupKey b k = none) (a : Doc) :
    lookupKey (a.map (fun p =>
      match lookupKey b p.1 with
      | some v => (p.1, v)
      | none => p)) k = lookupKey a k := by
  induction a with
  | nil => rfl
  | cons p rest ih =>
    rw [List.map_cons, lookupKey_cons, lookupKey_cons]
    rcases hp : lookupKey b p.1 with _ | v
    · simp only [hp]
      split <;> [rfl; exact ih]
    · simp only [hp]
      by_cases hk : p.1 = k
      · rw [hk] at hp
        rw [hp] at hb
        exact absurd hb (by simp)
      · simp [hk, ih]

theorem lookupKey_map_spread_of_some {b : Doc} {k : String} {v : Value}
    (hb : lookupKey b k = some v) (a : Doc) (ha : hasKey a k = true) :
    lookupKey (a.map (fun p =>
      match lookupKey b p.1 with
      | some w => (p.1, w)
      | none => p)) k = some v := by
  induction a with
  | nil => simp at ha
  | cons p rest ih =>
    rw [List.map_cons, lookupKey_cons]
    by_cases hk : p.1 = k
    · have hpb : lookupKey b p.1 = some v := hk ▸ hb
      simp only [hpb]
      simp [hk]
    · rcases hp : lookupKey b p.1 with _ | w <;> simp only [hp] <;>
        simp only [hasKey_cons, if_neg hk] at ha <;> simp [hk, ih ha]

theorem lookupKey_map_spread_of_not_hasKey {b : Doc} {k : String} (a : Doc)
    (ha : hasKey a k = false) :
    lookupKey (a.map (fun p =>
      match lookupKey b p.1 with
      | some w => (p.1, w)
      | none => p)) k = none := by
  induction a with
  | nil => rfl
  | cons p rest ih =>
    simp only [hasKey_cons] at ha
    by_cases hk : p.1 = k
    · rw [if_pos hk] at ha
      exact absurd ha (by simp)
    · rw [if_neg hk] at ha
      rw [List.map_cons, lookupKey_cons]
      rcases hp : lookupKey b p.1 with _ | w <;> simp only [hp] <;>
        simp [hk, ih ha]

theorem lookupKey_filter_keep {k : String} {f : String × Value → Bool}
    (hf : ∀ p : String × Value, p.1 = k → f p = true) (b : Doc) :
    lookupKey (b.filter f) k = lookupKey b k := by
  induction b with
  | nil => rfl
  | cons p rest ih =>
    rw [List.filter_cons]
    by_cases hk : p.1 = k
    · rw [if_pos (hf p hk), lookupKey_cons, lookupKey_cons, if_pos hk,
        if_pos hk]
    · rcases hfp : f p with _ | _
      · simp [hfp, lookupKey_cons, hk, ih]
      · simp [hfp, lookupKey_cons, hk, ih]

theorem lookupKey_filter_of_none {k : String} {b : Doc}
    (hb : lookupKey b k = none) (f : String × Value → Bool) :
    lookupKey (b.filter f) k = none := by
  induction b with
  | nil => rfl
  | cons p rest ih =>
    rw [lookupKey_cons] at hb
    split at hb
    · exact absurd hb (by simp)
    · rw [List.filter_cons]
      split
      · rw [lookupKey_cons, if_neg (by assumption)]
        exact ih hb
      · exact ih hb

/-- The JS object-spread lookup law: in `{...a, ...b}`, keys of `b`
override keys of `a`. -/
theorem lookupKey_spreadJS (a b : Doc) (k : String) :
    lookupKey (spreadJS a b) k
      = if hasKey b k then lookupKey b k else lookupKey a k := by
  unfold spreadJS
  rcases hb : lookupKey b k with _ | v
  · have hbk : hasKey b k = false := hasKey_eq_false_iff.mpr hb
    rw [hbk, if_neg Bool.false_ne_true]
    rcases ha : lookupKey a k with _ | w
    · rw [lookupKey_append_of_none _
        (by rw [lookupKey_map_spread_of_none hb a, ha])]
      exact lookupKey_filter_of_none hb _
    · rw [lookupKey_append_of_some _
        (by rw [lookupKey_map_spread_of_none hb a, ha])]
  · have hbk : hasKey b k = true := by simp [hasKey, hb]
    rw [hbk, if_pos rfl]
    rcases ha : hasKey a k with _ | _
    · rw [lookupKey_append_of_none _
        (lookupKey_map_spread_of_not_hasKey a ha),
        lookupKey_filter_keep (fun p hp => by simp [hp, ha]) b, hb]
    · exact lookupKey_append_of_some _ (lookupKey_map_spread_of_some hb a ha)

/-! ## Claims C1 and C6: `addOrClause` -/

/-- The body of `addOrClause` with the `let` bindings expanded. -/
theorem addOrClause_def (q oc : Doc) :
    addOrClause q oc =
      if truthy (lookupKey q "$or") then
        setKeyJS (eraseKey q "$or") "$and" (Value.docs
          (asDocs (lookupKey (eraseKey q "$or") "$and")
            ++ [[("$or", (lookupKey q "$or").getD (Value.scalar 0))], oc]))
      else if truthy (lookupKey (eraseKey q "$or") "$and") then
        setKeyJS (eraseKey q "$or") "$and"
          (Value.docs (asDocs (lookupKey (eraseKey q "$or") "$and") ++ [oc]))
      else
        spreadJS q oc := rfl

/-- A property that is `undefined` or bound to an array — the domain on
which the `[...x]` / `x || []` idioms of the source are crash-free. -/
def isDocsOrAbsent : Option Value → Bool
  | none => true
  | some (.docs _) => true
  | some (.scalar _) => false

/-- Claim C1 (confirmed): for every query containing a top-level `$or`
(bound, per the data model, to a sequence `l`) and every `orClause`, the
result is the query with `$or` removed and `$and` replaced (in place if
present, appended otherwise) by the query's pre-existing `$and` entries
(empty if absent), then the wrapper `{$or: l}`, then `orClause` as the
final entry; all other top-level keys are carried over unchanged.  The
`$and` typedness hypothesis restricts to the data model's documents (on a
truthy non-array `$and` the JS source would throw instead). -/
theorem addOrClause_existing_or (q oc : Doc) (l : List Doc)
    (hor : lookupKey q "$or" = some (Value.docs l))
    (_hand : isDocsOrAbsent (lookupKey q "$and") = true) :
    addOrClause q oc =
      setKeyJS (eraseKey q "$or") "$and"
        (Value.docs (asDocs (lookupKey q "$and")
          ++ [[("$or", Value.docs l)], oc])) := by
  rw [addOrClause_def, hor,
    lookupKey_eraseKey_ne q (by decide : ("$and" : String) ≠ "$or")]
  simp [truthy]

theorem addOrClause_existing_or_witness :
    (lookupKey [("$or", Value.docs [[("hello", Value.scalar 1)]]),
        ("$and", Value.docs [[("foo", Value.scalar 2)], [("bar", Value.scalar 3)]])]
        "$or" = some (Value.docs [[("hello", Value.scalar 1)]])
      ∧ isDocsOrAbsent (lookupKey
          [("$or", Value.docs [[("hello", Value.scalar 1)]]),
            ("$and", Value.docs [[("foo", Value.scalar 2)], [("bar", Value.scalar 3)]])]
          "$and") = true)
    ∧ addOrClause
        [("$or", Value.docs [[("hello", Value.scalar 1)]]),
          ("$and", Value.docs [[("foo", Value.scalar 2)], [("bar", Value.scalar 3)]])]
        [("$or", Value.docs [[("myField", Value.scalar 4)], [("myField", Value.scalar 0)]])]
      = setKeyJS
          (eraseKey
            [("$or", Value.docs [[("hello", Value.scalar 1)]]),
              ("$and", Value.docs [[("foo", Value.scalar 2)], [("bar", Value.scalar 3)]])]
            "$or") "$and"
          (Value.docs (asDocs (lookupKey
              [("$or", Value.docs [[("hello", Value.scalar 1)]]),
                ("$and", Value.docs [[("foo", Value.scalar 2)], [("bar", Value.scalar 3)]])]
              "$and")
            ++ [[("$or", Value.docs [[("hello", Value.scalar 1)]])],
              [("$or", Value.docs [[("myField", Value.scalar 4)], [("myField", Value.scalar 0)]])]])) :=
  ⟨⟨rfl, rfl⟩,
    addOrClause_existing_or
      [("$or", Value.docs [[("hello", Value.scalar 1)]]),
        ("$and", Value.docs [[("foo", Value.scalar 2)], [("bar", Value.scalar 3)]])]
      [("$or", Value.docs [[("myField", Value.scalar 4)], [("myField", Value.scalar 0)]])]
      [[("hello", Value.scalar 1)]] rfl rfl⟩

/-- Claim C6 (confirmed): `addOrClause` branches only on the shape of
`query`, never on the shape of `orClause` (both parts below hold for an
arbitrary `orClause`, with or without an `$or` key).  If the query has no
top-level `$or` but has `$and` (a sequence `al` per the data model), the
result is the query with `orClause` appended as the last element of its
`$and` array; if it has neither, the result is the JS shallow merge
`{...query, ...orClause}`, in which keys of `orClause` override keys of
`query` on collision (the final conjunct). -/
theorem addOrClause_branches_on_query (q oc : Doc) :
    (∀ al : List Doc, lookupKey q "$or" = none →
        lookupKey q "$and" = some (Value.docs al) →
        addOrClause q oc = setKeyJS q "$and" (Value.docs (al ++ [oc])))
    ∧ (lookupKey q "$or" = none → lookupKey q "$and" = none →
        addOrClause q oc = spreadJS q oc
          ∧ ∀ k : String, lookupKey (addOrClause q oc) k
              = if hasKey oc k then lookupKey oc k else lookupKey q k) := by
  constructor
  · intro al h1 h2
    have hq : eraseKey q "$or" = q :=
      eraseKey_of_hasKey_eq_false (hasKey_eq_false_iff.mpr h1)
    rw [addOrClause_def, h1, hq, h2]
    simp [truthy, asDocs]
  · intro h1 h2
    have hq : eraseKey q "$or" = q :=
      eraseKey_of_hasKey_eq_false (hasKey_eq_false_iff.mpr h1)
    have heq : addOrClause q oc = spreadJS q oc := by
      rw [addOrClause_def, h1, hq, h2]
      simp [truthy]
    exact ⟨heq, fun k => by rw [heq, lookupKey_spreadJS]⟩

theorem addOrClause_branches_on_query_witness :
    (lookupKey [("$and", Value.docs [[("foo", Value.scalar 1)], [("bar", Value.scalar 2)]])]
        "$or" = none
      ∧ lookupKey [("$and", Value.docs [[("foo", Value.scalar 1)], [("bar", Value.scalar 2)]])]
          "$and" = some (Value.docs [[("foo", Value.scalar 1)], [("bar", Value.scalar 2)]])
      ∧ addOrClause
          [("$and", Value.docs [[("foo", Value.scalar 1)], [("bar", Value.scalar 2)]])]
          [("myField", Value.scalar 3)]
        = setKeyJS [("$and", Value.docs [[("foo", Value.scalar 1)], [("bar", Value.scalar 2)]])]
            "$and"
            (Value.docs ([[("foo", Value.scalar 1)], [("bar", Value.scalar 2)]]
              ++ [[("myField", Value.scalar 3)]])))
    ∧ (lookupKey [("foo", Value.scalar 1)] "$or" = none
      ∧ lookupKey [("foo", Value.scalar 1)] "$and" = none
      ∧ addOrClause [("foo", Value.scalar 1)] [("foo", Value.scalar 9)]
          = spreadJS [("foo", Value.scalar 1)] [("foo", Value.scalar 9)]) :=
  ⟨⟨rfl, rfl,
    (addOrClause_branches_on_query
      [("$and", Value.docs [[("foo", Value.scalar 1)], [("bar", Value.scalar 2)]])]
      [("myField", Value.scalar 3)]).1
      [[("foo", Value.scalar 1)], [("bar", Value.scalar 2)]] rfl rfl⟩,
   ⟨rfl, rfl,
    ((addOrClause_branches_on_query [("foo", Value.scalar 1)]
      [("foo", Value.scalar 9)]).2 rfl rfl).1⟩⟩

/-! ## Claim C8: `omit` -/

theorem eraseKey_eq_filter (q : Doc) (k : String) :
    eraseKey q k = q.filter (fun p => p.1 ≠ k) := by
  induction q with
  | nil => rfl
  | cons p rest ih =>
    rw [eraseKey_cons, List.filter_cons]
    by_cases h : p.1 = k <;> simp [h, ih]

theorem omitKeys_of_ne_nil (ks : List String) (hks : ks ≠ []) :
    ∀ q : Doc, omitKeys q ks = q.filter (fun p => decide (p.1 ∉ ks)) := by
  induction ks with
  | nil => exact absurd rfl hks
  | cons f rest ih =>
    intro q
    cases rest with
    | nil =>
      rw [show omitKeys q [f] = eraseKey q f from rfl, eraseKey_eq_filter]
      refine List.filter_congr fun p _ => ?_
      simp
    | cons g rest2 =>
      rw [show omitKeys q (f :: g :: rest2)
          = omitKeys (eraseKey q f) (g :: rest2) from rfl,
        ih (by simp) (eraseKey q f), eraseKey_eq_filter, List.filter_filter]
      refine List.filter_congr fun p _ => ?_
      by_cases h1 : p.1 = f <;> simp [h1]

/-- Counterexample to claim C8 as stated: with an *empty* key list, `omit`
does not return an equivalent copy — the JS destructuring binds
`field = undefined`, whose computed property key is the string
`"undefined"`, so a document with a literal key `"undefined"` loses it. -/
theorem omitKeys_empty_keys_not_copy :
    omitKeys [("undefined", Value.scalar 1)] []
      ≠ [("undefined", Value.scalar 1)] := fun h =>
  absurd (congrArg List.length h) (by decide)

/-- Claim C8 (corrected): `omit(document, keys)` returns a new document
containing exactly the keys of `document` not listed in `keys`, values
unchanged, absent keys silently ignored — but for `keys = []` the result
is `document` with any literal key `"undefined"` removed (an equivalent
copy only when no such key exists), not unconditionally an equivalent
copy. -/
theorem omitKeys_spec (q : Doc) (ks : List String) :
    (ks ≠ [] → omitKeys q ks = q.filter (fun p => decide (p.1 ∉ ks)))
    ∧ omitKeys q [] = q.filter (fun p => p.1 ≠ "undefined") :=
  ⟨fun hks => omitKeys_of_ne_nil ks hks q,
    eraseKey_eq_filter q "undefined"⟩

theorem omitKeys_spec_witness :
    ((["a"] : List String) ≠ []) ∧
      omitKeys [("a", Value.scalar 1), ("b", Value.scalar 2)] ["a"]
        = ([("a", Value.scalar 1), ("b", Value.scalar 2)] : Doc).filter
            (fun p => decide (p.1 ∉ (["a"] : List String))) :=
  ⟨by decide,
    (omitKeys_spec [("a", Value.scalar 1), ("b", Value.scalar 2)] ["a"]).1
      (by decide)⟩

/-! ## Shape invariants (claim C3)

`shapeValidUpTo n q` is the data model's well-formedness down to `n`
levels: every `$or`/`$and` key is bound to a non-empty array of non-empty
sub-documents (in particular never to a scalar, on which the source's
array idioms would throw), recursively.  `noInvUpTo n q` is the weaker
claim-side property: no `$or`/`$and` bound to an empty array and no empty
document as an element of such an array (a scalar-bound operator key is
not constrained).  `ShapeValid`/`NoInvalidShapes` quantify over all
depths. -/

/-- An operator value is a non-empty array of non-empty sub-documents each
satisfying `recur`. -/
def opValOk (recur : Doc → Bool) : Value → Bool
  | .scalar _ => false
  | .docs l => !l.isEmpty && l.all (fun e => !e.isEmpty && recur e)

/-- Weak (claim-side) version: scalars are unconstrained. -/
def opValOkW (recur : Doc → Bool) : Value → Bool
  | .scalar _ => true
  | .docs l => !l.isEmpty && l.all (fun e => !e.isEmpty && recur e)

def shapeValidUpTo : Nat → Doc → Bool
  | 0, _ => true
  | n + 1, q => q.all fun p =>
      if p.1 = "$or" ∨ p.1 = "$and" then opValOk (shapeValidUpTo n) p.2
      else true

def noInvUpTo : Nat → Doc → Bool
  | 0, _ => true
  | n + 1, q => q.all fun p =>
      if p.1 = "$or" ∨ p.1 = "$and" then opValOkW (noInvUpTo n) p.2
      else true

/-- The document is well-formed per the data model, at every depth. -/
def ShapeValid (q : Doc) : Prop := ∀ n, shapeValidUpTo n q = true

/-- The claim-side invariant: nowhere in the document is `$or`/`$and`
bound to an empty sequence, and no `$or`/`$and` sequence contains an empty
document. -/
def NoInvalidShapes (q : Doc) : Prop := ∀ n, noInvUpTo n q = true

@[simp] theorem opValOk_scalar (r : Doc → Bool) (m : Nat) :
    opValOk r (Value.scalar m) = false := rfl

@[simp] theorem opValOk_docs (r : Doc → Bool) (l : List Doc) :
    opValOk r (Value.docs l)
      = (!l.isEmpty && l.all (fun e => !e.isEmpty && r e)) := rfl

@[simp] theorem opValOkW_scalar (r : Doc → Bool) (m : Nat) :
    opValOkW r (Value.scalar m) = true := rfl

@[simp] theorem opValOkW_docs (r : Doc → Bool) (l : List Doc) :
    opValOkW r (Value.docs l)
      = (!l.isEmpty && l.all (fun e => !e.isEmpty && r e)) := rfl

theorem not_isEmpty_eq_true {α : Type} {l : List α} :
    (!l.isEmpty) = true ↔ l ≠ [] := by
  cases l <;> simp

theorem shapeValidUpTo_succ (n : Nat) (q : Doc) :
    shapeValidUpTo (n + 1) q = q.all fun p =>
      if p.1 = "$or" ∨ p.1 = "$and" then opValOk (shapeValidUpTo n) p.2
      else true := rfl

theorem noInvUpTo_succ (n : Nat) (q : Doc) :
    noInvUpTo (n + 1) q = q.all fun p =>
      if p.1 = "$or" ∨ p.1 = "$and" then opValOkW (noInvUpTo n) p.2
      else true := rfl

theorem noInvUpTo_of_shapeValidUpTo :
    ∀ (n : Nat) (q : Doc), shapeValidUpTo n q = true
      → noInvUpTo n q = true := by
  intro n
  induction n with
  | zero => intro q _; rfl
  | succ n ih =>
    intro q h
    rw [shapeValidUpTo_succ, List.all_eq_true] at h
    rw [noInvUpTo_succ, List.all_eq_true]
    intro p hp
    have hq := h p hp
    split at hq <;> rename_i hcond
    · rw [if_pos hcond]
      cases hv : p.2 with
      | scalar m => rfl
      | docs l =>
        rw [hv] at hq
        simp only [opValOk_docs, Bool.and_eq_true, List.all_eq_true] at hq
        simp only [opValOkW_docs, Bool.and_eq_true, List.all_eq_true]
        refine ⟨hq.1, fun e he => ?_⟩
        have h2 := hq.2 e he
        exact ⟨h2.1, ih e h2.2⟩
    · rw [if_neg hcond]

theorem noInvalidShapes_of_shapeValid {q : Doc} (h : ShapeValid q) :
    NoInvalidShapes q :=
  fun n => noInvUpTo_of_shapeValidUpTo n q (h n)

theorem mem_of_lookupKey {q : Doc} {k : String} {v : Value} :
    lookupKey q k = some v → (k, v) ∈ q := by
  induction q with
  | nil => intro h; simp at h
  | cons p rest ih =>
    intro h
    obtain ⟨p1, p2⟩ := p
    rw [lookupKey_cons] at h
    by_cases h1 : p1 = k
    · subst h1
      rw [if_pos rfl] at h
      obtain rfl : p2 = v := by simpa using h
      exact List.mem_cons_self _ _
    · rw [if_neg h1] at h
      exact List.mem_cons_of_mem _ (ih h)

theorem fst_ne_of_hasKey_eq_false {q : Doc} {k : String} :
    hasKey q k = false → ∀ p ∈ q, p.1 ≠ k := by
  rw [hasKey_eq_false_iff]
  induction q with
  | nil => intro _ p hp; simp at hp
  | cons x rest ih =>
    intro h p hp
    rw [lookupKey_cons] at h
    split at h
    · exact absurd h (by simp)
    · rename_i hxk
      rcases List.mem_cons.mp hp with rfl | hp2
      · exact hxk
      · exact ih h p hp2

/-- Entries of `{...q, k: v}` are entries of `q` (with a key other than
`k`) or the pair `(k, v)` itself. -/
theorem mem_setKeyJS {q : Doc} {k : String} {v : Value} {p : String × Value}
    (h : p ∈ setKeyJS q k v) : (p ∈ q ∧ p.1 ≠ k) ∨ p = (k, v) := by
  unfold setKeyJS at h
  split at h
  · obtain ⟨x, hx, hfx⟩ := List.mem_map.mp h
    by_cases hxk : x.1 = k
    · right
      rw [← hfx]
      simp [hxk]
    · left
      rw [← hfx]
      simp only [if_neg hxk]
      exact ⟨hx, hxk⟩
  · rcases List.mem_append.mp h with h2 | h2
    · exact Or.inl ⟨h2, fst_ne_of_hasKey_eq_false (by simp_all) p h2⟩
    · exact Or.inr (by simpa using h2)

/-- Entries of `{...a, ...b}` take their key from an entry of `a`, or are
entries of `b`. -/
theorem mem_spreadJS {a b : Doc} {p : String × Value}
    (h : p ∈ spreadJS a b) : (∃ x ∈ a, p.1 = x.1) ∨ p ∈ b := by
  unfold spreadJS at h
  rcases List.mem_append.mp h with h2 | h2
  · obtain ⟨x, hx, hfx⟩ := List.mem_map.mp h2
    left
    refine ⟨x, hx, ?_⟩
    rw [← hfx]
    rcases lookupKey b x.1 with _ | w <;> rfl
  · exact Or.inr (List.mem_filter.mp h2).1

/-- Extraction of the data-model facts about an operator entry of a
`ShapeValid` document. -/
theorem ShapeValid.entry {q : Doc} (h : ShapeValid q) {k : String} {v : Value}
    (hm : (k, v) ∈ q) (hk : k = "$or" ∨ k = "$and") :
    ∃ l, v = Value.docs l ∧ l ≠ [] ∧ ∀ e ∈ l, e ≠ [] ∧ ShapeValid e := by
  have hlevel : ∀ n, opValOk (shapeValidUpTo n) v = true := by
    intro n
    have h1 := h (n + 1)
    rw [shapeValidUpTo_succ, List.all_eq_true] at h1
    have h2 := h1 (k, v) hm
    rwa [if_pos hk] at h2
  cases v with
  | scalar m => exact absurd (hlevel 0) (by simp)
  | docs l =>
    refine ⟨l, rfl, ?_, fun e he => ⟨?_, fun n => ?_⟩⟩
    · have h0 := hlevel 0
      rw [opValOk_docs, Bool.and_eq_true, not_isEmpty_eq_true] at h0
      exact h0.1
    · have h0 := hlevel 0
      rw [opValOk_docs, Bool.and_eq_true, List.all_eq_true] at h0
      have h2 := h0.2 e he
      rw [Bool.and_eq_true, not_isEmpty_eq_true] at h2
      exact h2.1
    · have h0 := hlevel n
      rw [opValOk_docs, Bool.and_eq_true, List.all_eq_true] at h0
      have h2 := h0.2 e he
      rw [Bool.and_eq_true] at h2
      exact h2.2

theorem shapeValid_eraseKey {q : Doc} (h : ShapeValid q) (k : String) :
    ShapeValid (eraseKey q k) := by
  intro n
  cases n with
  | zero => rfl
  | succ n =>
    rw [shapeValidUpTo_succ, List.all_eq_true]
    intro p hp
    have h1 := h (n + 1)
    rw [shapeValidUpTo_succ, List.all_eq_true] at h1
    exact h1 p (mem_eraseKey.mp hp).1

theorem shapeValid_asDocs_entry {q : Doc} (hq : ShapeValid q) {k : String}
    (hk : k = "$or" ∨ k = "$and") {x : Doc}
    (hx : x ∈ asDocs (lookupKey q k)) : x ≠ [] ∧ ShapeValid x := by
  rcases hv : lookupKey q k with _ | v
  · rw [hv] at hx
    simp [asDocs] at hx
  · rw [hv] at hx
    cases v with
    | scalar m => simp [asDocs] at hx
    | docs l =>
      obtain ⟨l2, hl2, -, hall⟩ := hq.entry (mem_of_lookupKey hv) hk
      obtain rfl : l = l2 := by injection hl2
      exact hall x (by simpa [asDocs] using hx)

/-- A document with no operator keys is trivially `ShapeValid`. -/
theorem shapeValid_of_no_ops {q : Doc}
    (h : ∀ p ∈ q, ¬ (p.1 = "$or" ∨ p.1 = "$and")) : ShapeValid q := by
  intro n
  cases n with
  | zero => rfl
  | succ n =>
    rw [shapeValidUpTo_succ, List.all_eq_true]
    intro p hp
    rw [if_neg (h p hp)]

/-- The wrapper document `{$or: l}` is `ShapeValid` when `l` is a
non-empty list of non-empty `ShapeValid` documents. -/
theorem shapeValid_or_wrapper {l : List Doc} (hl : l ≠ [])
    (hall : ∀ e ∈ l, e ≠ [] ∧ ShapeValid e) :
    ShapeValid [("$or", Value.docs l)] := by
  intro n
  cases n with
  | zero => rfl
  | succ n =>
    rw [shapeValidUpTo_succ, List.all_eq_true]
    intro p hp
    obtain rfl : p = ("$or", Value.docs l) := by simpa using hp
    rw [if_pos (Or.inl rfl)]
    rw [opValOk_docs, Bool.and_eq_true, not_isEmpty_eq_true, List.all_eq_true]
    refine ⟨hl, fun e he => ?_⟩
    rw [Bool.and_eq_true, not_isEmpty_eq_true]
    exact ⟨(hall e he).1, (hall e he).2 n⟩

/-- Setting `$and` to a non-empty list of non-empty `ShapeValid` documents
on a base with no `$or` key yields a `ShapeValid` document. -/
theorem shapeValid_setKey_and {rest : Doc} {L : List Doc}
    (hor : hasKey rest "$or" = false) (hL : L ≠ [])
    (hLe : ∀ e ∈ L, e ≠ [] ∧ ShapeValid e) :
    ShapeValid (setKeyJS rest "$and" (Value.docs L)) := by
  intro n
  cases n with
  | zero => rfl
  | succ n =>
    rw [shapeValidUpTo_succ, List.all_eq_true]
    intro p hp
    rcases mem_setKeyJS hp with ⟨hpq, hpk⟩ | rfl
    · have hpo : p.1 ≠ "$or" := fst_ne_of_hasKey_eq_false hor p hpq
      rw [if_neg (by tauto)]
    · rw [if_pos (Or.inr rfl)]
      rw [opValOk_docs, Bool.and_eq_true, not_isEmpty_eq_true,
        List.all_eq_true]
      refine ⟨hL, fun e he => ?_⟩
      rw [Bool.and_eq_true, not_isEmpty_eq_true]
      exact ⟨(hLe e he).1, (hLe e he).2 n⟩

theorem eq_of_mem_orClausePart {p : String × Value} {l : List Doc}
    (h : p ∈ orClausePart l) : p = ("$or", Value.docs l) ∧ l ≠ [] := by
  unfold orClausePart at h
  split at h <;> rename_i hc
  · exact ⟨by simpa using h, List.length_pos.mp hc⟩
  · simp at h

theorem eq_of_mem_andClausePart {p : String × Value} {l : List Doc}
    (h : p ∈ andClausePart l) : p = ("$and", Value.docs l) ∧ l ≠ [] := by
  unfold andClausePart at h
  split at h <;> rename_i hc
  · exact ⟨by simpa using h, List.length_pos.mp hc⟩
  · simp at h

/-- Field removal preserves the data-model shape invariants at every
fuel. -/
theorem removeFC_shapeValid (f : String) :
    ∀ (n : Nat) (q : Doc), ShapeValid q → ShapeValid (removeFC f n q) := by
  intro n
  induction n with
  | zero => exact fun q h => h
  | succ n ih =>
    intro q hq m
    cases m with
    | zero => rfl
    | succ m =>
      rw [shapeValidUpTo_succ, List.all_eq_true]
      intro p hp
      rw [removeFC_succ] at hp
      rcases List.mem_append.mp hp with hp1 | hpAP
      · rcases List.mem_append.mp hp1 with hpB | hpOP
        · have h1 : p.1 ≠ "$and" := fst_ne_of_mem_eraseKey hpB
          have h2 : p.1 ≠ "$or" :=
            fst_ne_of_mem_eraseKey (mem_eraseKey.mp hpB).1
          rw [if_neg (by tauto)]
        · obtain ⟨rfl, hne⟩ := eq_of_mem_orClausePart hpOP
          rw [if_pos (Or.inl rfl)]
          show opValOk (shapeValidUpTo m) (Value.docs (newOrOf f n q)) = true
          rw [opValOk_docs, Bool.and_eq_true, not_isEmpty_eq_true,
            List.all_eq_true]
          refine ⟨hne, fun e he => ?_⟩
          rw [Bool.and_eq_true, not_isEmpty_eq_true]
          obtain ⟨hlen, x, hx, rfl⟩ := mem_newOrOf he
          have hx2 := shapeValid_asDocs_entry (shapeValid_eraseKey hq f)
            (Or.inl rfl) hx
          exact ⟨List.length_pos.mp hlen, ih x hx2.2 m⟩
      · obtain ⟨rfl, hne⟩ := eq_of_mem_andClausePart hpAP
        rw [if_pos (Or.inr rfl)]
        show opValOk (shapeValidUpTo m) (Value.docs (newAndOf f n q)) = true
        rw [opValOk_docs, Bool.and_eq_true, not_isEmpty_eq_true,
          List.all_eq_true]
        refine ⟨hne, fun e he => ?_⟩
        rw [Bool.and_eq_true, not_isEmpty_eq_true]
        obtain ⟨hlen, x, hx, rfl⟩ := mem_newAndOf he
        have hx2 := shapeValid_asDocs_entry (shapeValid_eraseKey hq f)
          (Or.inr rfl) hx
        exact ⟨List.length_pos.mp hlen, ih x hx2.2 m⟩

/-- Merging preserves the shape invariants, provided the added
`orClause` is itself well-formed and non-empty. -/
theorem addOrClause_shapeValid {q oc : Doc} (hq : ShapeValid q)
    (hoc : ShapeValid oc) (hne : oc ≠ []) : ShapeValid (addOrClause q oc) := by
  rcases hv : lookupKey q "$or" with _ | v
  · have hqr : eraseKey q "$or" = q :=
      eraseKey_of_hasKey_eq_false (hasKey_eq_false_iff.mpr hv)
    rcases hw : lookupKey q "$and" with _ | w
    · have heq : addOrClause q oc = spreadJS q oc := by
        rw [addOrClause_def, hv, hqr, hw]
        simp [truthy]
      rw [heq]
      intro m
      cases m with
      | zero => rfl
      | succ m =>
        rw [shapeValidUpTo_succ, List.all_eq_true]
        intro p hp
        rcases mem_spreadJS hp with ⟨x, hx, hfst⟩ | hp2
        · have h1 : x.1 ≠ "$or" :=
            fst_ne_of_hasKey_eq_false (hasKey_eq_false_iff.mpr hv) x hx
          have h2 : x.1 ≠ "$and" :=
            fst_ne_of_hasKey_eq_false (hasKey_eq_false_iff.mpr hw) x hx
          rw [hfst, if_neg (by tauto)]
        · have h1 := hoc (m + 1)
          rw [shapeValidUpTo_succ, List.all_eq_true] at h1
          exact h1 p hp2
    · obtain ⟨al, rfl, hal, halle⟩ := hq.entry (mem_of_lookupKey hw)
        (Or.inr rfl)
      have heq : addOrClause q oc
          = setKeyJS q "$and" (Value.docs (al ++ [oc])) := by
        rw [addOrClause_def, hv, hqr, hw]
        simp [truthy, asDocs]
      rw [heq]
      refine shapeValid_setKey_and (hasKey_eq_false_iff.mpr hv)
        (by simp) (fun e he => ?_)
      rcases List.mem_append.mp he with he2 | he2
      · exact halle e he2
      · obtain rfl : e = oc := by simpa using he2
        exact ⟨hne, hoc⟩
  · obtain ⟨l, rfl, hl, halle⟩ := hq.entry (mem_of_lookupKey hv) (Or.inl rfl)
    have heq : addOrClause q oc
        = setKeyJS (eraseKey q "$or") "$and"
            (Value.docs (asDocs (lookupKey q "$and")
              ++ [[("$or", Value.docs l)], oc])) := by
      rw [addOrClause_def, hv,
        lookupKey_eraseKey_ne q (by decide : ("$and" : String) ≠ "$or")]
      simp [truthy]
    rw [heq]
    refine shapeValid_setKey_and (hasKey_eraseKey_self q "$or")
      (by simp) (fun e he => ?_)
    rcases List.mem_append.mp he with he2 | he2
    · exact shapeValid_asDocs_entry hq (Or.inr rfl) he2
    · rcases List.mem_cons.mp he2 with rfl | he3
      · exact ⟨by simp, shapeValid_or_wrapper hl halle⟩
      · obtain rfl : e = oc := by simpa using he3
        exact ⟨hne, hoc⟩

/-! ## Claim C3 -/

/-- Counterexample to claim C3 as stated ("for all input documents
whatsoever"): merging the *empty* document as an `orClause` into a query
that has an `$and` clause appends `{}` to that `$and` sequence, an invalid
shape. -/
theorem addOrClause_invalid_shape_counterexample :
    ¬ NoInvalidShapes
        (addOrClause [("$and", Value.docs [[("a", Value.scalar 1)]])] []) :=
  fun h => absurd (h 1) (by decide)

/-- Claim C3 (corrected): the outputs of `removeFieldReferences` (at any
`maxDepth`) and `addOrClause` contain no `$or`/`$and` bound to an empty
sequence and no empty document inside a `$or`/`$and` sequence — not for
all inputs whatsoever, but provided the inputs themselves are well-formed
per the data model (`ShapeValid`) and, for `addOrClause`, the `orClause`
is non-empty. -/
theorem outputs_no_invalid_shapes (q oc : Doc) (f : String) (d : Int)
    (hq : ShapeValid q) (hoc : ShapeValid oc) (hne : oc ≠ []) :
    NoInvalidShapes (removeFieldReferences q f d)
      ∧ NoInvalidShapes (addOrClause q oc) :=
  ⟨noInvalidShapes_of_shapeValid (removeFC_shapeValid f d.toNat q hq),
    noInvalidShapes_of_shapeValid (addOrClause_shapeValid hq hoc hne)⟩

theorem outputs_no_invalid_shapes_witness :
    (ShapeValid [("foo", Value.scalar 1)]
        ∧ ShapeValid [("m", Value.scalar 2)]
        ∧ ([("m", Value.scalar 2)] : Doc) ≠ [])
      ∧ (NoInvalidShapes
          (removeFieldReferences [("foo", Value.scalar 1)] "foo" 5)
        ∧ NoInvalidShapes
            (addOrClause [("foo", Value.scalar 1)] [("m", Value.scalar 2)])) :=
  ⟨⟨fun n => by cases n <;> rfl, fun n => by cases n <;> rfl, by simp⟩,
    outputs_no_invalid_shapes [("foo", Value.scalar 1)]
      [("m", Value.scalar 2)] "foo" 5
      (fun n => by cases n <;> rfl) (fun n => by cases n <;> rfl) (by simp)⟩

/-! ## Key order (claim C9) -/

/-- The `$or` entry of `q` as a singleton fragment (empty if absent). -/
def orEntryOf (q : Doc) : Doc :=
  match lookupKey q "$or" with
  | some v => [("$or", v)]
  | none => []

/-- The `$and` entry of `q` as a singleton fragment (empty if absent). -/
def andEntryOf (q : Doc) : Doc :=
  match lookupKey q "$and" with
  | some v => [("$and", v)]
  | none => []

/-- Keys of `q` come as: non-operator keys first, then `$or` (if
present), then `$and` (if present). -/
def opsLast (q : Doc) : Prop :=
  q = eraseKey (eraseKey q "$or") "$and" ++ orEntryOf q ++ andEntryOf q

/-- The key order asserted by the spec: original non-operator keys first,
then `$and`, then `$or`. -/
def keysNonOpThenAndThenOr (q : Doc) : Bool :=
  q.map Prod.fst ==
    ((eraseKey (eraseKey q "$or") "$and").map Prod.fst
      ++ (if hasKey q "$and" then ["$and"] else [])
      ++ (if hasKey q "$or" then ["$or"] else []))

theorem orEntryOf_removeFC_succ (f : String) (n : Nat) (q : Doc) :
    orEntryOf (removeFC f (n + 1) q) = orClausePart (newOrOf f n q) := by
  unfold orEntryOf
  rw [lookupKey_removeFC_succ_or]
  by_cases h : 0 < (newOrOf f n q).length
  · rw [if_pos h]
    simp [orClausePart, h]
  · rw [if_neg h]
    simp [orClausePart, h]

theorem andEntryOf_removeFC_succ (f : String) (n : Nat) (q : Doc) :
    andEntryOf (removeFC f (n + 1) q) = andClausePart (newAndOf f n q) := by
  unfold andEntryOf
  rw [lookupKey_removeFC_succ_and]
  by_cases h : 0 < (newAndOf f n q).length
  · rw [if_pos h]
    simp [andClausePart, h]
  · rw [if_neg h]
    simp [andClausePart, h]

theorem removeFC_succ_opsLast (f : String) (n : Nat) (q : Doc) :
    opsLast (removeFC f (n + 1) q) := by
  unfold opsLast
  rw [erase_ops_removeFC_succ, orEntryOf_removeFC_succ,
    andEntryOf_removeFC_succ]
  exact removeFC_succ f n q

theorem map_fst_spreadJS (a b : Doc) :
    (spreadJS a b).map Prod.fst
      = a.map Prod.fst ++ (b.filter (fun p => ¬ hasKey a p.1)).map Prod.fst := by
  unfold spreadJS
  rw [List.map_append, List.map_map]
  congr 1
  refine List.map_congr_left fun p _ => ?_
  simp only [Function.comp_apply]
  rcases lookupKey b p.1 with _ | v <;> rfl

/-- Counterexample to claim C9 as stated: processing a query holding both
operators yields keys `[$or, $and]` — the construction order of the source
— not the claimed `[$and, $or]`. -/
theorem key_order_counterexample :
    keysNonOpThenAndThenOr
      (removeFieldReferences
        [("$or", Value.docs [[("a", Value.scalar 1)]]),
          ("$and", Value.docs [[("b", Value.scalar 1)]])] "x") = false := by
  decide

/-- Claim C9 (corrected): key order in every produced document is indeed
deterministic, but not "non-operator keys, then `$and`, then `$or`".  For
`removeFieldReferences` (at `maxDepth ≥ 1`) it is: non-operator keys of
the filtered top level first, then `$or` (when present), then `$and`
(when present).  For `addOrClause`, in the two `$and`-building branches
the result keeps the key order of the query without its `$or`, with the
`$and` key in its pre-existing position (appended at the end only when
absent); in the merge branch the result has the query's keys followed by
`orClause`'s new keys. -/
theorem key_order_deterministic (q oc : Doc) (f : String) (d : Int)
    (hd : 1 ≤ d) :
    opsLast (removeFieldReferences q f d)
      ∧ ((truthy (lookupKey q "$or") = true
            ∨ truthy (lookupKey (eraseKey q "$or") "$and") = true) →
          (addOrClause q oc).map Prod.fst =
            if hasKey (eraseKey q "$or") "$and" then
              (eraseKey q "$or").map Prod.fst
            else (eraseKey q "$or").map Prod.fst ++ ["$and"])
      ∧ (truthy (lookupKey q "$or") = false →
          truthy (lookupKey (eraseKey q "$or") "$and") = false →
          (addOrClause q oc).map Prod.fst =
            q.map Prod.fst
              ++ (oc.filter (fun p => ¬ hasKey q p.1)).map Prod.fst) := by
  refine ⟨?_, ?_, ?_⟩
  · obtain ⟨n, hn⟩ : ∃ n, d.toNat = n + 1 := ⟨d.toNat - 1, by omega⟩
    rw [removeFieldReferences, removeFieldClausesFromQuery, hn]
    exact removeFC_succ_opsLast f n q
  · intro h
    rcases h1 : truthy (lookupKey q "$or") with _ | _
    · have h2 : truthy (lookupKey (eraseKey q "$or") "$and") = true := by
        rcases h with h | h
        · rw [h1] at h
          exact absurd h (by simp)
        · exact h
      rw [addOrClause_def, h1, if_neg Bool.false_ne_true, h2, if_pos rfl,
        setKeyJS_map_fst]
    · rw [addOrClause_def, h1, if_pos rfl, setKeyJS_map_fst]
  · intro h1 h2
    rw [addOrClause_def, h1, if_neg Bool.false_ne_true, h2,
      if_neg Bool.false_ne_true, map_fst_spreadJS]

theorem key_order_deterministic_witness :
    ((1 : Int) ≤ 5
      ∧ truthy (lookupKey
          [("$or", Value.docs [[("a", Value.scalar 1)]]),
            ("b", Value.scalar 2)] "$or") = true)
    ∧ (opsLast (removeFieldReferences
          [("$or", Value.docs [[("a", Value.scalar 1)]]),
            ("b", Value.scalar 2)] "x" 5)
      ∧ (addOrClause
            [("$or", Value.docs [[("a", Value.scalar 1)]]),
              ("b", Value.scalar 2)]
            [("$or", Value.docs [[("m", Value.scalar 3)]])]).map Prod.fst =
          if hasKey (eraseKey
              [("$or", Value.docs [[("a", Value.scalar 1)]]),
                ("b", Value.scalar 2)] "$or") "$and" then
            (eraseKey [("$or", Value.docs [[("a", Value.scalar 1)]]),
              ("b", Value.scalar 2)] "$or").map Prod.fst
          else (eraseKey [("$or", Value.docs [[("a", Value.scalar 1)]]),
              ("b", Value.scalar 2)] "$or").map Prod.fst ++ ["$and"]) :=
  ⟨⟨by decide, by decide⟩,
    (key_order_deterministic
      [("$or", Value.docs [[("a", Value.scalar 1)]]), ("b", Value.scalar 2)]
      [("$or", Value.docs [[("m", Value.scalar 3)]])] "x" 5 (by decide)).1,
    ((key_order_deterministic
      [("$or", Value.docs [[("a", Value.scalar 1)]]), ("b", Value.scalar 2)]
      [("$or", Value.docs [[("m", Value.scalar 3)]])] "x" 5 (by decide)).2.1
      (Or.inl (by decide)))⟩

/-! ## Absent field is a no-op (claim C7) -/

/-- Whether `f` occurs as a key somewhere within `n` recursive levels of
`q` (top level and `$or`/`$and` sub-documents, levels counted as in
`fieldAbsentUpTo`). -/
def occursWithin : Nat → String → Doc → Bool
  | 0, _, _ => false
  | n + 1, f, q => hasKey q f
      || (asDocs (lookupKey q "$or")).any (occursWithin n f)
      || (asDocs (lookupKey q "$and")).any (occursWithin n f)

/-- The document's keys are already in the order the processing step
produces — non-operator keys first, then `$or`, then `$and` — recursively
down to `n` levels. -/
def canonUpTo : Nat → Doc → Prop
  | 0, _ => True
  | n + 1, q => q = eraseKey (eraseKey q "$or") "$and"
        ++ orEntryOf q ++ andEntryOf q
      ∧ (∀ e ∈ asDocs (lookupKey q "$or"), canonUpTo n e)
      ∧ (∀ e ∈ asDocs (lookupKey q "$and"), canonUpTo n e)

theorem occursWithin_succ (n : Nat) (f : String) (q : Doc) :
    occursWithin (n + 1) f q = (hasKey q f
      || (asDocs (lookupKey q "$or")).any (occursWithin n f)
      || (asDocs (lookupKey q "$and")).any (occursWithin n f)) := rfl

theorem canonUpTo_succ (n : Nat) (q : Doc) :
    canonUpTo (n + 1) q = (q = eraseKey (eraseKey q "$or") "$and"
        ++ orEntryOf q ++ andEntryOf q
      ∧ (∀ e ∈ asDocs (lookupKey q "$or"), canonUpTo n e)
      ∧ (∀ e ∈ asDocs (lookupKey q "$and"), canonUpTo n e)) := rfl

/-- Level-indexed version of `ShapeValid.entry`. -/
theorem shapeValidUpTo_succ_entry {n : Nat} {q : Doc}
    (h : shapeValidUpTo (n + 1) q = true) {k : String} {v : Value}
    (hm : (k, v) ∈ q) (hk : k = "$or" ∨ k = "$and") :
    ∃ l, v = Value.docs l ∧ l ≠ []
      ∧ ∀ e ∈ l, e ≠ [] ∧ shapeValidUpTo n e = true := by
  rw [shapeValidUpTo_succ, List.all_eq_true] at h
  have h2 := h (k, v) hm
  rw [if_pos hk] at h2
  cases v with
  | scalar m => exact absurd h2 (by simp)
  | docs l =>
    rw [opValOk_docs, Bool.and_eq_true, not_isEmpty_eq_true,
      List.all_eq_true] at h2
    refine ⟨l, rfl, h2.1, fun e he => ?_⟩
    have h3 := h2.2 e he
    rw [Bool.and_eq_true, not_isEmpty_eq_true] at h3
    exact h3

theorem shapeValidUpTo_succ_asDocs {n : Nat} {q : Doc} {k : String}
    (h : shapeValidUpTo (n + 1) q = true) (hk : k = "$or" ∨ k = "$and")
    {e : Doc} (he : e ∈ asDocs (lookupKey q k)) :
    e ≠ [] ∧ shapeValidUpTo n e = true := by
  rcases hv : lookupKey q k with _ | v
  · rw [hv] at he
    simp [asDocs] at he
  · rw [hv] at he
    cases v with
    | scalar m => simp [asDocs] at he
    | docs l =>
      obtain ⟨l2, hl2, -, hall⟩ :=
        shapeValidUpTo_succ_entry h (mem_of_lookupKey hv) hk
      obtain rfl : l = l2 := by injection hl2
      exact hall e (by simpa [asDocs] using he)

theorem orClausePart_asDocs_eq_orEntryOf {n : Nat} {q : Doc}
    (hv : shapeValidUpTo (n + 1) q = true) :
    orClausePart (asDocs (lookupKey q "$or")) = orEntryOf q := by
  unfold orEntryOf
  rcases h : lookupKey q "$or" with _ | v
  · simp [orClausePart, asDocs]
  · cases v with
    | scalar m =>
      obtain ⟨l, hl, -, -⟩ :=
        shapeValidUpTo_succ_entry hv (mem_of_lookupKey h) (Or.inl rfl)
      exact absurd hl (by simp)
    | docs l =>
      obtain ⟨l2, hl2, hne, -⟩ :=
        shapeValidUpTo_succ_entry hv (mem_of_lookupKey h) (Or.inl rfl)
      obtain rfl : l = l2 := by injection hl2
      simp [orClausePart, asDocs, List.length_pos.mpr hne]

theorem andClausePart_asDocs_eq_andEntryOf {n : Nat} {q : Doc}
    (hv : shapeValidUpTo (n + 1) q = true) :
    andClausePart (asDocs (lookupKey q "$and")) = andEntryOf q := by
  unfold andEntryOf
  rcases h : lookupKey q "$and" with _ | v
  · simp [andClausePart, asDocs]
  · cases v with
    | scalar m =>
      obtain ⟨l, hl, -, -⟩ :=
        shapeValidUpTo_succ_entry hv (mem_of_lookupKey h) (Or.inr rfl)
      exact absurd hl (by simp)
    | docs l =>
      obtain ⟨l2, hl2, hne, -⟩ :=
        shapeValidUpTo_succ_entry hv (mem_of_lookupKey h) (Or.inr rfl)
      obtain rfl : l = l2 := by injection hl2
      simp [andClausePart, asDocs, List.length_pos.mpr hne]

/-- Engine form of the no-op property: on a well-shaped,
canonically-ordered document not containing the field within the fuel's
reach, processing changes nothing. -/
theorem removeFC_of_absent (f : String) :
    ∀ (n : Nat) (q : Doc), shapeValidUpTo n q = true
      → occursWithin n f q = false → canonUpTo n q → removeFC f n q = q := by
  intro n
  induction n with
  | zero => intro q _ _ _; rfl
  | succ n ih =>
    intro q hv hocc hcanon
    rw [occursWithin_succ] at hocc
    have hocc2 := hocc
    simp only [Bool.or_eq_false_iff] at hocc2
    obtain ⟨⟨hk, hanyor⟩, hanyand⟩ := hocc2
    rw [canonUpTo_succ] at hcanon
    obtain ⟨hc1, hc2, hc3⟩ := hcanon
    have hef : eraseKey q f = q := eraseKey_of_hasKey_eq_false hk
    have hOr : newOrOf f n q = asDocs (lookupKey q "$or") := by
      unfold newOrOf
      rw [hef]
      have hmap : (asDocs (lookupKey q "$or")).map (removeFC f n)
          = (asDocs (lookupKey q "$or")).map id := by
        refine List.map_congr_left fun e he => ?_
        refine ih e (shapeValidUpTo_succ_asDocs hv (Or.inl rfl) he).2 ?_
          (hc2 e he)
        have := List.any_eq_false.mp hanyor e he
        exact Bool.eq_false_iff.mpr this
      rw [hmap, List.map_id]
      refine List.filter_eq_self.mpr fun e he => ?_
      have := (shapeValidUpTo_succ_asDocs hv (Or.inl rfl) he).1
      simpa [List.length_pos] using this
    have hAnd : newAndOf f n q = asDocs (lookupKey q "$and") := by
      unfold newAndOf
      rw [hef]
      have hmap : (asDocs (lookupKey q "$and")).map (removeFC f n)
          = (asDocs (lookupKey q "$and")).map id := by
        refine List.map_congr_left fun e he => ?_
        refine ih e (shapeValidUpTo_succ_asDocs hv (Or.inr rfl) he).2 ?_
          (hc3 e he)
        have := List.any_eq_false.mp hanyand e he
        exact Bool.eq_false_iff.mpr this
      rw [hmap, List.map_id]
      refine List.filter_eq_self.mpr fun e he => ?_
      have := (shapeValidUpTo_succ_asDocs hv (Or.inr rfl) he).1
      simpa [List.length_pos] using this
    rw [removeFC_succ, hef, hOr, hAnd, orClausePart_asDocs_eq_orEntryOf hv,
      andClausePart_asDocs_eq_andEntryOf hv, ← hc1]

/-- Counterexample to claim C7 as stated: a structurally valid query whose
`$or` key precedes a plain key is *not* returned structurally equal by a
removal of an absent field — the processing step moves operator keys to
the end. -/
theorem absent_field_not_noop_counterexample :
    shapeValidUpTo 5 [("$or", Value.docs [[("a", Value.scalar 1)]]),
        ("b", Value.scalar 2)] = true
      ∧ occursWithin 5 "hello"
          [("$or", Value.docs [[("a", Value.scalar 1)]]),
            ("b", Value.scalar 2)] = false
      ∧ removeFieldReferences
          [("$or", Value.docs [[("a", Value.scalar 1)]]),
            ("b", Value.scalar 2)] "hello" 5
        ≠ [("$or", Value.docs [[("a", Value.scalar 1)]]),
            ("b", Value.scalar 2)] :=
  ⟨by decide, by decide,
    fun h => absurd (congrArg (List.map Prod.fst) h) (by decide)⟩

/-- Claim C7 (corrected): removal of a field absent within `maxDepth`
levels from a structurally valid query returns the query structurally
equal — provided the query's keys are already in the canonical order the
construction produces (non-operator keys first, then `$or`, then `$and`,
recursively in the processed region); in general the result differs from
the input exactly by that reordering. -/
theorem removeFieldReferences_absent_noop (q : Doc) (f : String) (d : Int)
    (hv : shapeValidUpTo d.toNat q = true)
    (hocc : occursWithin d.toNat f q = false)
    (hcanon : canonUpTo d.toNat q) :
    removeFieldReferences q f d = q :=
  removeFC_of_absent f d.toNat q hv hocc hcanon

theorem removeFieldReferences_absent_noop_witness :
    (shapeValidUpTo (5 : Int).toNat
        [("b", Value.scalar 2), ("$or", Value.docs [[("a", Value.scalar 1)]])]
        = true
      ∧ occursWithin (5 : Int).toNat "hello"
          [("b", Value.scalar 2), ("$or", Value.docs [[("a", Value.scalar 1)]])]
          = false
      ∧ canonUpTo (5 : Int).toNat
          [("b", Value.scalar 2), ("$or", Value.docs [[("a", Value.scalar 1)]])])
    ∧ removeFieldReferences
        [("b", Value.scalar 2), ("$or", Value.docs [[("a", Value.scalar 1)]])]
        "hello" 5
      = [("b", Value.scalar 2), ("$or", Value.docs [[("a", Value.scalar 1)]])] := by
  have hcanon : canonUpTo (5 : Int).toNat
      [("b", Value.scalar 2), ("$or", Value.docs [[("a", Value.scalar 1)]])] := by
    rw [show ((5 : Int).toNat) = 5 from rfl, canonUpTo_succ]
    refine ⟨rfl, fun e he => ?_, fun e he => by simp [lookupKey, asDocs] at he⟩
    obtain rfl : e = [("a", Value.scalar 1)] := by
      simpa [lookupKey, asDocs] using he
    rw [canonUpTo_succ]
    refine ⟨rfl, fun x hx => by simp [lookupKey, asDocs] at hx,
      fun x hx => by simp [lookupKey, asDocs] at hx⟩
  exact ⟨⟨by decide, by decide, hcanon⟩,
    removeFieldReferences_absent_noop
      [("b", Value.scalar 2), ("$or", Value.docs [[("a", Value.scalar 1)]])]
      "hello" 5 (by decide) (by decide) hcanon⟩

end MongoQuery
